import Mathlib

/-!
# Verification of `juce::dsp::Oscillator` (src/modules/juce_dsp/processors/juce_Oscillator.h)

A shallow embedding of the oscillator's phase-accumulation and signal-generation
logic.  The numeric type of the source (`NumericType`, a floating-point scalar)
is modelled by `ℚ` with exact arithmetic; `std::fmod` is modelled by `fmod`
below with the C semantics (remainder after truncation toward zero, result sign
following the dividend).  The constants `MathConstants<double>::pi` and
`::twoPi` are modelled by the exact rational values of the corresponding IEEE
doubles.

External collaborators of the core that are not part of the supplied source
(`LinearSmoothedValue`, `LookupTableTransform`, the block/context abstraction)
are modelled from the spec's interface contracts; see the doc comments on
those definitions.

Debug assertions (`jassert`) in `process` are modelled as explicit contract
checks that abort the call with `ProcErr.assertViolation`; every scratch-buffer
access of the ramping branch goes through a bounds-checked accessor that aborts
with `ProcErr.oobAccess` when out of range, so that in-boundedness of the
scratch accesses is a provable property of the embedding.
-/

/-- The value of `MathConstants<double>::pi`: the IEEE-754 double nearest π,
exactly `884279719003555 / 2^48`. -/
def mathPi : ℚ := mkRat 884279719003555 281474976710656

/-- The value of `MathConstants<double>::twoPi`: exactly twice `mathPi`
(doubling a double only shifts the exponent), i.e. `884279719003555 / 2^47`. -/
def mathTwoPi : ℚ := mkRat 884279719003555 140737488355328

theorem mathPi_eq : mathPi = (884279719003555 : ℚ) / 281474976710656 := by
  rw [mathPi, Rat.mkRat_eq_div]
  norm_num

theorem mathTwoPi_eq : mathTwoPi = (884279719003555 : ℚ) / 140737488355328 := by
  rw [mathTwoPi, Rat.mkRat_eq_div]
  norm_num

theorem mathTwoPi_eq_two_mul : mathTwoPi = 2 * mathPi := by
  rw [mathPi_eq, mathTwoPi_eq]
  norm_num

theorem mathPi_pos : 0 < mathPi := by decide

theorem mathTwoPi_pos : 0 < mathTwoPi := by decide

/-- Truncation toward zero of a rational, as in C's conversion to integer. -/
def qtrunc (q : ℚ) : ℤ := if 0 ≤ q then ⌊q⌋ else -⌊-q⌋

/-- `std::fmod x y` with the C99 semantics: `x - trunc (x / y) * y`; the
result has the sign of `x` and magnitude below `|y|`. -/
def fmod (x y : ℚ) : ℚ := x - y * (qtrunc (x / y) : ℚ)

theorem fmod_def (x y : ℚ) : fmod x y = x - y * (qtrunc (x / y) : ℚ) := rfl

/-- `fmod` keeps the residue class modulo `y`. -/
theorem fmod_sub_self_int_mul (x y : ℚ) : ∃ k : ℤ, x - fmod x y = y * (k : ℚ) :=
  ⟨qtrunc (x / y), by simp [fmod]⟩

theorem fmod_nonneg_of_nonneg {m : ℚ} (hm : 0 < m) {x : ℚ} (hx : 0 ≤ x) :
    0 ≤ fmod x m ∧ fmod x m < m := by
  have hq : 0 ≤ x / m := div_nonneg hx hm.le
  have ht : qtrunc (x / m) = ⌊x / m⌋ := by simp [qtrunc, hq]
  have hfmod : fmod x m = m * Int.fract (x / m) := by
    rw [fmod, ht, Int.fract]
    field_simp
  constructor
  · rw [hfmod]
    exact mul_nonneg hm.le (Int.fract_nonneg _)
  · rw [hfmod]
    calc m * Int.fract (x / m) < m * 1 :=
          (mul_lt_mul_left hm).mpr (Int.fract_lt_one _)
    _ = m := mul_one m

theorem fmod_nonpos_of_nonpos {m : ℚ} (hm : 0 < m) {x : ℚ} (hx : x ≤ 0) :
    -m < fmod x m ∧ fmod x m ≤ 0 := by
  rcases eq_or_lt_of_le hx with heq | hlt
  · rw [heq]
    have h0 : fmod 0 m = 0 := by simp [fmod, qtrunc]
    rw [h0]
    exact ⟨by linarith, le_refl 0⟩
  · have hq : ¬ 0 ≤ x / m := by
      refine not_le.mpr ?_
      exact div_neg_of_neg_of_pos hlt hm
    have ht : qtrunc (x / m) = -⌊-(x / m)⌋ := by simp [qtrunc, hq]
    have hfmod : fmod x m = -(m * Int.fract (-(x / m))) := by
      rw [fmod, ht, Int.fract]
      push_cast
      field_simp
      ring
    constructor
    · rw [hfmod]
      have : m * Int.fract (-(x / m)) < m * 1 :=
        (mul_lt_mul_left hm).mpr (Int.fract_lt_one _)
      linarith [this]
    · rw [hfmod]
      have : 0 ≤ m * Int.fract (-(x / m)) :=
        mul_nonneg hm.le (Int.fract_nonneg _)
      linarith

/-- `fmod` is the identity on `[0, m)`. -/
theorem fmod_eq_self_of_lt {m : ℚ} (hm : 0 < m) {x : ℚ} (h0 : 0 ≤ x) (h1 : x < m) :
    fmod x m = x := by
  have hq0 : 0 ≤ x / m := div_nonneg h0 hm.le
  have hq1 : x / m < 1 := (div_lt_one hm).mpr h1
  have : ⌊x / m⌋ = 0 := Int.floor_eq_zero_iff.mpr ⟨hq0, hq1⟩
  simp [fmod, qtrunc, hq0, this]

/-- Two values of the same residue class, both in `[0, m)`, are equal. -/
theorem eq_of_residue_nonneg {m a b : ℚ} (hm : 0 < m)
    (ha0 : 0 ≤ a) (ha1 : a < m) (hb0 : 0 ≤ b) (hb1 : b < m)
    (h : ∃ k : ℤ, a - b = m * (k : ℚ)) : a = b := by
  obtain ⟨k, hk⟩ := h
  have hklt : (k : ℚ) < 1 := by
    by_contra hge
    push_neg at hge
    have : m * 1 ≤ m * (k : ℚ) := by
      exact (mul_le_mul_left hm).mpr hge
    nlinarith
  have hkgt : (-1 : ℚ) < (k : ℚ) := by
    by_contra hle
    push_neg at hle
    have : m * (k : ℚ) ≤ m * (-1 : ℚ) := by
      exact (mul_le_mul_left hm).mpr hle
    nlinarith
  have hk1 : k < 1 := by exact_mod_cast hklt
  have hk2 : -1 < k := by exact_mod_cast hkgt
  have : k = 0 := by omega
  subst this
  push_cast at hk
  linarith

/-- Two values of the same residue class, both in `(-m, 0]`, are equal. -/
theorem eq_of_residue_nonpos {m a b : ℚ} (hm : 0 < m)
    (ha0 : -m < a) (ha1 : a ≤ 0) (hb0 : -m < b) (hb1 : b ≤ 0)
    (h : ∃ k : ℤ, a - b = m * (k : ℚ)) : a = b := by
  obtain ⟨k, hk⟩ := h
  have h2 : -a = -b :=
    eq_of_residue_nonneg hm (by linarith) (by linarith) (by linarith) (by linarith)
      ⟨-k, by push_cast; linarith⟩
  linarith

/-- `fmod` is also the identity on `(-m, 0]`. -/
theorem fmod_eq_self_of_nonpos {m : ℚ} (hm : 0 < m) {x : ℚ} (h0 : -m < x)
    (h1 : x ≤ 0) : fmod x m = x := by
  have h := fmod_nonpos_of_nonpos hm h1
  refine eq_of_residue_nonpos hm h.1 h.2 h0 h1 ?_
  obtain ⟨k, hk⟩ := fmod_sub_self_int_mul x m
  exact ⟨-k, by push_cast; linarith⟩

/-- Residue classes are preserved by adding the same value to congruent terms. -/
theorem residue_add {m a b d : ℚ} (h : ∃ k : ℤ, a - b = m * (k : ℚ)) :
    ∃ k : ℤ, (a + d) - (b + d) = m * (k : ℚ) := by
  obtain ⟨k, hk⟩ := h
  exact ⟨k, by linarith⟩

/-- `fmod (a + d) m = fmod (b + d) m` whenever `a ≡ b (mod m)` and `a`, `b`
have the same relationship to the sign cases used by the truncating `fmod`;
stated here for the nonnegative case. -/
theorem fmod_add_eq_of_residue_nonneg {m a b d : ℚ} (hm : 0 < m)
    (ha : 0 ≤ a + d) (hb : 0 ≤ b + d)
    (h : ∃ k : ℤ, a - b = m * (k : ℚ)) :
    fmod (a + d) m = fmod (b + d) m := by
  have h1 := fmod_nonneg_of_nonneg hm ha
  have h2 := fmod_nonneg_of_nonneg hm hb
  refine eq_of_residue_nonneg hm h1.1 h1.2 h2.1 h2.2 ?_
  obtain ⟨k0, hk0⟩ := h
  obtain ⟨k1, hk1⟩ := fmod_sub_self_int_mul (a + d) m
  obtain ⟨k2, hk2⟩ := fmod_sub_self_int_mul (b + d) m
  exact ⟨k0 - k1 + k2, by push_cast; linarith⟩

/-- The nonpositive counterpart of `fmod_add_eq_of_residue_nonneg`. -/
theorem fmod_add_eq_of_residue_nonpos {m a b d : ℚ} (hm : 0 < m)
    (ha : a + d ≤ 0) (hb : b + d ≤ 0)
    (h : ∃ k : ℤ, a - b = m * (k : ℚ)) :
    fmod (a + d) m = fmod (b + d) m := by
  have h1 := fmod_nonpos_of_nonpos hm ha
  have h2 := fmod_nonpos_of_nonpos hm hb
  refine eq_of_residue_nonpos hm h1.1 h1.2 h2.1 h2.2 ?_
  obtain ⟨k0, hk0⟩ := h
  obtain ⟨k1, hk1⟩ := fmod_sub_self_int_mul (a + d) m
  obtain ⟨k2, hk2⟩ := fmod_sub_self_int_mul (b + d) m
  exact ⟨k0 - k1 + k2, by push_cast; linarith⟩

/-!
## The parameter-smoothing primitive

Modelled from the spec: `LinearSmoothedValue`, the external parameter-smoothing
primitive, is not part of the supplied source.  Its contract (spec §6): it is
"constructed with an initial value; `setValue(target, force)`,
`getTargetValue()`, `getNextValue()` (advances one step and returns it),
`isSmoothing()` (true while ramp in progress), `reset(sampleRate, rampSeconds)`
(re-arms ramp duration in samples)"; smoothing "transitions over a fixed ramp
duration whenever the target changes (unless an immediate/forced update is
requested)" and reset makes it "immediately track its current target".  The
ramp is linear over `⌊rampSeconds · sampleRate⌋` steps.

The field `steps` is a ghost instrumentation counter recording how many
smoothing steps have been consumed (one per `getNextValue` call); it has no
influence on any produced value and no counterpart in the primitive's state.
-/

structure LinearSmoothedValue where
  currentValue : ℚ
  target : ℚ
  step : ℚ
  countdown : ℕ
  stepsToTarget : ℕ
  steps : ℕ

/-- Construction with an initial value: current and target coincide, no ramp. -/
def LinearSmoothedValue.init (v : ℚ) : LinearSmoothedValue :=
  { currentValue := v, target := v, step := 0, countdown := 0,
    stepsToTarget := 0, steps := 0 }

/-- `setValue(newValue, force)`: forced updates jump immediately; otherwise a
changed target re-arms the countdown and computes the per-step increment. -/
def LinearSmoothedValue.setValue (s : LinearSmoothedValue) (v : ℚ) (force : Bool) :
    LinearSmoothedValue :=
  if force then
    { s with currentValue := v, target := v, countdown := 0 }
  else if v ≠ s.target then
    if s.stepsToTarget = 0 then
      { s with currentValue := v, target := v, countdown := 0 }
    else
      { s with target := v, countdown := s.stepsToTarget,
               step := (v - s.currentValue) / (s.stepsToTarget : ℚ) }
  else s

/-- `getTargetValue()`. -/
def LinearSmoothedValue.getTargetValue (s : LinearSmoothedValue) : ℚ := s.target

/-- `getNextValue()`: advance one step and return the new current value (the
target once the ramp has completed). -/
def LinearSmoothedValue.getNextValue (s : LinearSmoothedValue) :
    ℚ × LinearSmoothedValue :=
  if s.countdown = 0 then
    (s.target, { s with steps := s.steps + 1 })
  else
    (s.currentValue + s.step,
     { s with currentValue := s.currentValue + s.step,
              countdown := s.countdown - 1, steps := s.steps + 1 })

/-- `isSmoothing()`: true while a ramp is in progress. -/
def LinearSmoothedValue.isSmoothing (s : LinearSmoothedValue) : Bool :=
  s.countdown != 0

/-- `reset(sampleRate, rampSeconds)`: re-arm the ramp length in samples and
immediately track the current target. -/
def LinearSmoothedValue.reset (s : LinearSmoothedValue)
    (sampleRate rampSeconds : ℚ) : LinearSmoothedValue :=
  { s with stepsToTarget := (⌊rampSeconds * sampleRate⌋).toNat,
           countdown := 0, currentValue := s.target }

/-!
## The approximation cache and the generator

Modelled from the spec: `LookupTableTransform`, the external
function-approximation cache, is not part of the supplied source.  Its
contract (spec §6): "constructed from `(function, domainLow, domainHigh,
numPoints)`; once built, callable with a domain value to produce an
approximated function value; immutable after construction".  The interpolation
algorithm itself is a stated non-goal of the core, so the cache's query is
modelled as evaluating the cached function on the queried value; no claim in
scope depends on the approximation error.
-/

structure LookupTableTransform where
  f : ℚ → ℚ
  minInputValue : ℚ
  maxInputValue : ℚ
  numPoints : ℕ

/-- Querying the cache with a domain value. -/
def LookupTableTransform.eval (t : LookupTableTransform) (x : ℚ) : ℚ := t.f x

/-- The installed generator: either the user function itself (`initialise`
with `lookupTableNumPoints == 0`) or the closure querying the cache. -/
inductive Generator where
  | direct (f : ℚ → ℚ)
  | viaTable (t : LookupTableTransform)

/-- Evaluating the installed generator. -/
def Generator.eval : Generator → ℚ → ℚ
  | .direct f, x => f x
  | .viaTable t, x => t.eval x

/-- Evaluating the `std::function` member `generator`; an empty function is
never invoked on the source's asserted paths, modelled as the junk value 0. -/
def genEval : Option Generator → ℚ → ℚ
  | some g, x => g.eval x
  | none, _ => 0

/-!
## The oscillator state

Direct translation of the data members of `juce::dsp::Oscillator`
(juce_Oscillator.h, lines 176-180), with the scratch buffer `rampBuffer`
(a `juce::Array<NumericType>`) as a list holding its current contents.
-/

structure Oscillator where
  generator : Option Generator
  lookupTable : Option LookupTableTransform
  rampBuffer : List ℚ
  frequency : LinearSmoothedValue
  sampleRate : ℚ
  pos : ℚ

/-- The default-constructed oscillator (default ctor plus member
initialisers, lines 45-46 and 176-180). -/
def Oscillator.default : Oscillator :=
  { generator := none, lookupTable := none, rampBuffer := [],
    frequency := LinearSmoothedValue.init 440, sampleRate := 48000, pos := 0 }

/-- `isInitialised()` (line 59). -/
def Oscillator.isInitialised (o : Oscillator) : Bool := o.generator.isSome

/-- `initialise` (lines 62-78): with a nonzero point count, build a cache over
`[-π, π]`, own it, and install the querying closure; otherwise install the
function directly (leaving `lookupTable` untouched). -/
def Oscillator.initialise (o : Oscillator) (f : ℚ → ℚ)
    (lookupTableNumPoints : ℕ) : Oscillator :=
  if lookupTableNumPoints ≠ 0 then
    let table : LookupTableTransform :=
      { f := f, minInputValue := -mathPi, maxInputValue := mathPi,
        numPoints := lookupTableNumPoints }
    { o with lookupTable := some table, generator := some (.viaTable table) }
  else
    { o with generator := some (.direct f) }

/-- `setFrequency` (line 82). -/
def Oscillator.setFrequency (o : Oscillator) (v : ℚ) (force : Bool) : Oscillator :=
  { o with frequency := o.frequency.setValue v force }

/-- `getFrequency` (line 85). -/
def Oscillator.getFrequency (o : Oscillator) : ℚ := o.frequency.getTargetValue

/-- `reset` (lines 98-104): zero the phase; re-arm the smoothing primitive
with the 0.05 s ramp only when the stored sample rate is positive. -/
def Oscillator.reset (o : Oscillator) : Oscillator :=
  let o' := { o with pos := (0 : ℚ) }
  if 0 < o'.sampleRate then
    { o' with frequency := o'.frequency.reset o'.sampleRate (1/20) }
  else o'

/-- The preparation record (`ProcessSpec`): `sampleRate`, `maximumBlockSize`,
`numChannels`; the oscillator reads the first two. -/
structure ProcessSpec where
  sampleRate : ℚ
  maximumBlockSize : ℕ
  numChannels : ℕ

/-- `prepare` (lines 89-95): store the sample rate, resize the scratch buffer
to `maximumBlockSize` (keeping existing entries, zero-filling new ones, as
`Array::resize` does), then `reset`. -/
def Oscillator.prepare (o : Oscillator) (spec : ProcessSpec) : Oscillator :=
  Oscillator.reset
    { o with sampleRate := spec.sampleRate,
             rampBuffer := o.rampBuffer.take spec.maximumBlockSize ++
               List.replicate (spec.maximumBlockSize - o.rampBuffer.length) 0 }

/-- `processSample` (lines 108-116): one smoothing step, the increment, the
generator at `pos - π`, then the wrapped phase advance. -/
def Oscillator.processSample (o : Oscillator) : ℚ × Oscillator :=
  let next := o.frequency.getNextValue
  let increment := mathTwoPi * next.1 / o.sampleRate
  let value := genEval o.generator (o.pos - mathPi)
  (value, { o with frequency := next.2,
                   pos := fmod (o.pos + increment) mathTwoPi })

/-- `n` successive `processSample` calls: the produced values and final state. -/
def Oscillator.processSamples (o : Oscillator) : ℕ → List ℚ × Oscillator
  | 0 => ([], o)
  | n + 1 =>
    let (v, o') := o.processSample
    let (vs, o'') := o'.processSamples n
    (v :: vs, o'')

/-!
## `process` (lines 119-172)

The block/context abstraction is modelled from the spec: an output block is a
list of channels, each a list of `len` pre-existing sample values that are
overwritten position by position; `numChannels` is the number of channels.
The two `jassert`s relevant to the claims (`isInitialised()` at line 122 and
the block-size check at line 127) are modelled as contract checks aborting
with `ProcErr.assertViolation`; the input-block assert at line 126 is vacuous
here because the modelled context is output-only.  Accesses to the scratch
buffer `rampBuffer` in the ramping branch are modelled by the bounds-checked
`setChecked`/`getChecked`, aborting with `ProcErr.oobAccess` when out of
range.
-/

inductive ProcErr where
  | assertViolation
  | oobAccess
deriving DecidableEq

/-- Bounds-checked scratch-buffer write `buffer[i] = v`. -/
def setChecked (l : List ℚ) (i : ℕ) (v : ℚ) : Option (List ℚ) :=
  if i < l.length then some (l.set i v) else none

/-- Bounds-checked scratch-buffer read `buffer[i]`. -/
def getChecked (l : List ℚ) (i : ℕ) : Option ℚ :=
  if h : i < l.length then some (l.get ⟨i, h⟩) else none

/-- The staging loop of the ramping branch (lines 137-143): for `n` more
samples starting at index `i`, write `pos - π` into the scratch buffer, then
advance `pos` by `baseIncrement · getNextValue()` and wrap. -/
def stageRamp (baseIncrement : ℚ) :
    ℕ → ℕ → List ℚ → ℚ → LinearSmoothedValue →
    Option (List ℚ × ℚ × LinearSmoothedValue)
  | 0, _, buf, pos, fr => some (buf, pos, fr)
  | n + 1, i, buf, pos, fr =>
    match setChecked buf i (pos - mathPi) with
    | none => none
    | some buf' =>
      let (f, fr') := fr.getNextValue
      stageRamp baseIncrement n (i + 1) buf'
        (fmod (pos + baseIncrement * f) mathTwoPi) fr'

/-- Reading back `n` staged scratch values starting at index `i`
(line 150's `buffer[i]` reads). -/
def readStaged (buf : List ℚ) : ℕ → ℕ → Option (List ℚ)
  | _, 0 => some []
  | i, n + 1 =>
    match getChecked buf i with
    | none => none
    | some v =>
      match readStaged buf (i + 1) n with
      | none => none
      | some vs => some (v :: vs)

/-- Writing a sequence of computed samples over a channel's pre-existing
contents, position by position (`dst[i] = …`): positions `0 … |vals|-1`
receive the new values, the rest of the channel is untouched. -/
def writeSamples : List ℚ → List ℚ → List ℚ
  | dst, [] => dst
  | [], _ => []
  | _ :: dst, v :: vs => v :: writeSamples dst vs

/-- One channel of the ramping branch (lines 147-150): read every staged
phase value back and write the generator's value over the channel. -/
def rampChannel (g : Option Generator) (buf : List ℚ) (len : ℕ)
    (old : List ℚ) : Option (List ℚ) :=
  match readStaged buf 0 len with
  | none => none
  | some staged => some (writeSamples old (staged.map (genEval g)))

/-- Option-valued map over the channels of a block. -/
def mapChannels (f : List ℚ → Option (List ℚ)) :
    List (List ℚ) → Option (List (List ℚ))
  | [] => some []
  | c :: cs =>
    match f c with
    | none => none
    | some c' =>
      match mapChannels f cs with
      | none => none
      | some cs' => some (c' :: cs')

/-- The per-channel sample walk of the steady branch (lines 162-166): write
`generator(p - π)` and advance the local phase copy by the constant
increment, `n` times. -/
def steadyVals (g : Option Generator) (pos freq : ℚ) : ℕ → List ℚ
  | 0 => []
  | n + 1 =>
    genEval g (pos - mathPi) :: steadyVals g (fmod (pos + freq) mathTwoPi) freq n

/-- `process` (lines 119-172).  `data` is the output block's pre-existing
per-channel contents; `len` its sample count. -/
def Oscillator.process (o : Oscillator) (len : ℕ) (data : List (List ℚ)) :
    Except ProcErr (List (List ℚ) × Oscillator) :=
  if o.generator.isNone then .error .assertViolation
  else if o.rampBuffer.length < len then .error .assertViolation
  else
    let baseIncrement := mathTwoPi / o.sampleRate
    if o.frequency.isSmoothing then
      match stageRamp baseIncrement len 0 o.rampBuffer o.pos o.frequency with
      | none => .error .oobAccess
      | some (buf, pos', fr') =>
        match mapChannels (rampChannel o.generator buf len) data with
        | none => .error .oobAccess
        | some out =>
          .ok (out, { o with rampBuffer := buf, pos := pos', frequency := fr' })
    else
      let next := o.frequency.getNextValue
      let freq := baseIncrement * next.1
      let out := data.map (fun old => writeSamples old (steadyVals o.generator o.pos freq len))
      .ok (out, { o with frequency := next.2,
                         pos := fmod (o.pos + freq * (len : ℚ)) mathTwoPi })

/-!
## The smoothing-primitive invariant

`LSVInv` states that current and target values are nonnegative and that,
while a ramp is in progress, the remaining steps land exactly on the target.
It is the inductive strength needed to show that every value produced by
`getNextValue` is nonnegative when all requested targets are.
-/

def LSVInv (s : LinearSmoothedValue) : Prop :=
  0 ≤ s.currentValue ∧ 0 ≤ s.target ∧
    (s.countdown ≠ 0 → s.currentValue + (s.countdown : ℚ) * s.step = s.target)

instance (s : LinearSmoothedValue) : Decidable (LSVInv s) := by
  unfold LSVInv
  infer_instance

theorem LSVInv_getNextValue {s : LinearSmoothedValue} (h : LSVInv s) :
    0 ≤ (s.getNextValue).1 ∧ LSVInv (s.getNextValue).2 := by
  obtain ⟨hc, ht, hramp⟩ := h
  unfold LinearSmoothedValue.getNextValue
  rcases Nat.eq_zero_or_pos s.countdown with h0 | hpos
  · simp only [h0, if_pos rfl]
    exact ⟨ht, hc, ht, by simp [h0]⟩
  · have hne : s.countdown ≠ 0 := Nat.pos_iff_ne_zero.mp hpos
    have heq := hramp hne
    simp only [if_neg hne]
    have hcd : (1 : ℚ) ≤ (s.countdown : ℚ) := by exact_mod_cast hpos
    have hval : 0 ≤ s.currentValue + s.step := by
      rcases le_or_lt 0 s.step with hstep | hstep
      · linarith
      · have : (s.countdown : ℚ) * s.step ≤ 1 * s.step := by
          exact mul_le_mul_of_nonpos_right hcd hstep.le
        nlinarith
    refine ⟨hval, hval, ht, ?_⟩
    dsimp only
    intro hne'
    have hcast : ((s.countdown - 1 : ℕ) : ℚ) = (s.countdown : ℚ) - 1 := by
      have h1 : (1 : ℕ) ≤ s.countdown := hpos
      push_cast [Nat.cast_sub h1]
      ring
    rw [hcast]
    linarith

theorem LSVInv_setValue {s : LinearSmoothedValue} (h : LSVInv s)
    {v : ℚ} (hv : 0 ≤ v) (force : Bool) : LSVInv (s.setValue v force) := by
  obtain ⟨hc, ht, hramp⟩ := h
  unfold LinearSmoothedValue.setValue
  rcases force with _ | _
  · simp only [Bool.false_eq_true, if_false]
    by_cases hne : v ≠ s.target
    · simp only [if_pos hne]
      by_cases hstz : s.stepsToTarget = 0
      · simp only [if_pos hstz]
        exact ⟨hv, hv, by simp⟩
      · simp only [if_neg hstz]
        refine ⟨hc, hv, fun _ => ?_⟩
        have : (s.stepsToTarget : ℚ) ≠ 0 := by exact_mod_cast hstz
        field_simp
    · simp only [if_neg hne]
      exact ⟨hc, ht, hramp⟩
  · simp only [if_pos rfl]
    exact ⟨hv, hv, by simp⟩

theorem LSVInv_reset {s : LinearSmoothedValue} (h : LSVInv s)
    (sampleRate rampSeconds : ℚ) : LSVInv (s.reset sampleRate rampSeconds) := by
  obtain ⟨_, ht, _⟩ := h
  exact ⟨ht, ht, by simp [LinearSmoothedValue.reset]⟩

/-!
## The oscillator invariant

`OscInv` packages the spec's phase-range invariant with its enabling
conditions: a positive sample rate (guaranteed by a valid `prepare`) and
nonnegative frequency values in the smoothing primitive.
-/

def OscInv (o : Oscillator) : Prop :=
  0 < o.sampleRate ∧ 0 ≤ o.pos ∧ o.pos < mathTwoPi ∧ LSVInv o.frequency

instance (o : Oscillator) : Decidable (OscInv o) := by
  unfold OscInv
  infer_instance

theorem OscInv_processSample {o : Oscillator} (h : OscInv o) :
    OscInv (o.processSample).2 := by
  obtain ⟨hsr, hp0, hp1, hf⟩ := h
  have hnext := LSVInv_getNextValue hf
  have hinc : 0 ≤ mathTwoPi * (o.frequency.getNextValue).1 / o.sampleRate :=
    div_nonneg (mul_nonneg mathTwoPi_pos.le hnext.1) hsr.le
  have hsum : 0 ≤ o.pos + mathTwoPi * (o.frequency.getNextValue).1 / o.sampleRate := by
    linarith
  have hrange := fmod_nonneg_of_nonneg mathTwoPi_pos hsum
  exact ⟨hsr, hrange.1, hrange.2, hnext.2⟩

theorem OscInv_setFrequency {o : Oscillator} (h : OscInv o)
    {v : ℚ} (hv : 0 ≤ v) (force : Bool) : OscInv (o.setFrequency v force) :=
  ⟨h.1, h.2.1, h.2.2.1, LSVInv_setValue h.2.2.2 hv force⟩

/-- The staging loop of the ramping branch keeps the phase in range, keeps
the smoothing invariant, and preserves the scratch buffer's length. -/
theorem stageRamp_inv {b : ℚ} (hb : 0 ≤ b) :
    ∀ (n i : ℕ) (buf : List ℚ) (pos : ℚ) (fr : LinearSmoothedValue),
      0 ≤ pos → pos < mathTwoPi → LSVInv fr →
      ∀ r, stageRamp b n i buf pos fr = some r →
        0 ≤ r.2.1 ∧ r.2.1 < mathTwoPi ∧ LSVInv r.2.2 ∧ r.1.length = buf.length
  | 0, i, buf, pos, fr => by
    intro hp0 hp1 hf r hr
    simp only [stageRamp] at hr
    cases hr
    exact ⟨hp0, hp1, hf, rfl⟩
  | n + 1, i, buf, pos, fr => by
    intro hp0 hp1 hf r hr
    simp only [stageRamp] at hr
    rcases hset : setChecked buf i (pos - mathPi) with _ | buf'
    · rw [hset] at hr
      exact absurd hr (by simp)
    · rw [hset] at hr
      simp only [] at hr
      have hnext := LSVInv_getNextValue hf
      have hsum : 0 ≤ pos + b * (fr.getNextValue).1 :=
        add_nonneg hp0 (mul_nonneg hb hnext.1)
      have hrange := fmod_nonneg_of_nonneg mathTwoPi_pos hsum
      have hlen : buf'.length = buf.length := by
        unfold setChecked at hset
        by_cases hi : i < buf.length
        · rw [if_pos hi] at hset
          cases hset
          simp
        · rw [if_neg hi] at hset
          cases hset
      have := stageRamp_inv hb n (i + 1) buf'
        (fmod (pos + b * (fr.getNextValue).1) mathTwoPi) (fr.getNextValue).2
        hrange.1 hrange.2 hnext.2 r hr
      exact ⟨this.1, this.2.1, this.2.2.1, this.2.2.2.trans hlen⟩

/-!
## Success and shape lemmas for the block-processing helpers
-/

theorem stageRamp_isSome (b : ℚ) :
    ∀ (n i : ℕ) (buf : List ℚ) (pos : ℚ) (fr : LinearSmoothedValue),
      i + n ≤ buf.length →
      ∃ r, stageRamp b n i buf pos fr = some r ∧ r.1.length = buf.length
  | 0, i, buf, pos, fr => by
    intro _
    exact ⟨(buf, pos, fr), rfl, rfl⟩
  | n + 1, i, buf, pos, fr => by
    intro hle
    have hi : i < buf.length := by omega
    have hset : setChecked buf i (pos - mathPi) = some (buf.set i (pos - mathPi)) := by
      simp [setChecked, hi]
    have hlen : (buf.set i (pos - mathPi)).length = buf.length := by simp
    obtain ⟨r, hr, hrlen⟩ := stageRamp_isSome b n (i + 1) (buf.set i (pos - mathPi))
      (fmod (pos + b * (fr.getNextValue).1) mathTwoPi) (fr.getNextValue).2
      (by omega)
    refine ⟨r, ?_, hrlen.trans hlen⟩
    simp only [stageRamp, hset]
    exact hr

theorem readStaged_isSome (buf : List ℚ) :
    ∀ (n i : ℕ), i + n ≤ buf.length →
      ∃ vs, readStaged buf i n = some vs ∧ vs.length = n
  | 0, i => by
    intro _
    exact ⟨[], rfl, rfl⟩
  | n + 1, i => by
    intro hle
    have hi : i < buf.length := by omega
    obtain ⟨vs, hvs, hvslen⟩ := readStaged_isSome buf n (i + 1) (by omega)
    refine ⟨buf.get ⟨i, hi⟩ :: vs, ?_, by simp [hvslen]⟩
    simp only [readStaged, getChecked, dif_pos hi, hvs]

@[simp]
theorem writeSamples_nil (dst : List ℚ) : writeSamples dst [] = dst := by
  cases dst <;> rfl

theorem writeSamples_length :
    ∀ (dst vals : List ℚ), (writeSamples dst vals).length = dst.length
  | dst, [] => by simp
  | [], _ :: _ => rfl
  | _ :: dst, v :: vs => by
    simp only [writeSamples, List.length_cons, writeSamples_length dst vs]

/-- When the channel holds exactly as many samples as are written, the write
replaces the whole channel: the result is the written sequence. -/
theorem writeSamples_eq_of_length :
    ∀ (dst vals : List ℚ), dst.length = vals.length → writeSamples dst vals = vals
  | dst, [], h => by
    rw [writeSamples_nil]
    exact List.length_eq_zero.mp h
  | [], v :: vs, h => by simp at h
  | d :: dst, v :: vs, h => by
    simp only [List.length_cons, Nat.succ.injEq] at h
    simp only [writeSamples, writeSamples_eq_of_length dst vs h]

theorem steadyVals_length (g : Option Generator) :
    ∀ (n : ℕ) (pos freq : ℚ), (steadyVals g pos freq n).length = n
  | 0, _, _ => rfl
  | n + 1, pos, freq => by
    simp only [steadyVals, List.length_cons, steadyVals_length g n]

theorem mapChannels_eq_map (f : List ℚ → Option (List ℚ)) (g : List ℚ → List ℚ) :
    ∀ l : List (List ℚ), (∀ c ∈ l, f c = some (g c)) →
      mapChannels f l = some (l.map g)
  | [], _ => rfl
  | c :: cs, h => by
    have hc : f c = some (g c) := h c (List.mem_cons_self c cs)
    have hcs := mapChannels_eq_map f g cs (fun c' hc' => h c' (List.mem_cons_of_mem c hc'))
    simp only [mapChannels, hc, hcs, List.map_cons]

theorem rampChannel_eq (g : Option Generator) (buf : List ℚ) (len : ℕ)
    (staged : List ℚ) (hread : readStaged buf 0 len = some staged)
    (old : List ℚ) :
    rampChannel g buf len old = some (writeSamples old (staged.map (genEval g))) := by
  simp only [rampChannel, hread]

/-!
## Characterizations of `process`
-/

/-- `process` on an initialised oscillator whose block fits the scratch
buffer never fails — in particular, no scratch-buffer access is out of
bounds — and its outcome in the ramping branch is as staged. -/
theorem process_ok_of_fits {o : Oscillator} (hg : o.generator.isSome = true)
    {len : ℕ} (hlen : len ≤ o.rampBuffer.length) (data : List (List ℚ)) :
    ∃ r, o.process len data = .ok r := by
  have hgn : o.generator.isNone = false := by
    cases h : o.generator
    · rw [h] at hg; simp at hg
    · simp
  unfold Oscillator.process
  rw [hgn]
  simp only [Bool.false_eq_true, if_false, if_neg (not_lt.mpr hlen)]
  by_cases hsm : o.frequency.isSmoothing
  · rw [if_pos hsm]
    obtain ⟨⟨buf, pos', fr'⟩, hr, hrlen⟩ := stageRamp_isSome (mathTwoPi / o.sampleRate) len 0
      o.rampBuffer o.pos o.frequency (by omega)
    dsimp only at hrlen
    rw [hr]
    dsimp only
    obtain ⟨staged, hread, _⟩ := readStaged_isSome buf len 0 (by omega)
    rw [mapChannels_eq_map _ (fun old => writeSamples old (staged.map (genEval o.generator)))
      data (fun c _ => rampChannel_eq o.generator buf len staged hread c)]
    exact ⟨_, rfl⟩
  · rw [if_neg hsm]
    exact ⟨_, rfl⟩

/-- The steady (non-ramping) branch of `process`, written out. -/
theorem process_steady_eq {o : Oscillator} (hg : o.generator.isSome = true)
    (hsm : o.frequency.isSmoothing = false)
    {len : ℕ} (hlen : len ≤ o.rampBuffer.length) (data : List (List ℚ)) :
    o.process len data =
      .ok (data.map (fun old => writeSamples old
             (steadyVals o.generator o.pos
               (mathTwoPi / o.sampleRate * (o.frequency.getNextValue).1) len)),
           { o with frequency := (o.frequency.getNextValue).2,
                    pos := fmod (o.pos + mathTwoPi / o.sampleRate *
                      (o.frequency.getNextValue).1 * (len : ℚ)) mathTwoPi }) := by
  have hgn : o.generator.isNone = false := by
    cases h : o.generator
    · rw [h] at hg; simp at hg
    · simp
  unfold Oscillator.process
  rw [hgn]
  simp only [Bool.false_eq_true, if_false, if_neg (not_lt.mpr hlen), hsm]

/-- A successful `process` call preserves the oscillator invariant. -/
theorem OscInv_process {o : Oscillator} (h : OscInv o) {len : ℕ}
    {data out : List (List ℚ)} {o' : Oscillator}
    (hok : o.process len data = .ok (out, o')) : OscInv o' := by
  obtain ⟨hsr, hp0, hp1, hf⟩ := h
  have hb : 0 ≤ mathTwoPi / o.sampleRate := div_nonneg mathTwoPi_pos.le hsr.le
  unfold Oscillator.process at hok
  split at hok
  · exact absurd hok (by simp)
  · split at hok
    · exact absurd hok (by simp)
    · split at hok
      · -- ramping branch
        dsimp only at hok
        split at hok
        · exact absurd hok (by simp)
        · rename_i buf pos' fr' heq
          split at hok
          · exact absurd hok (by simp)
          · cases hok
            have := stageRamp_inv hb len 0 o.rampBuffer o.pos o.frequency
              hp0 hp1 hf (buf, pos', fr') heq
            exact ⟨hsr, this.1, this.2.1, this.2.2.1⟩
      · -- steady branch
        dsimp only at hok
        cases hok
        have hnext := LSVInv_getNextValue hf
        have hfreq : 0 ≤ mathTwoPi / o.sampleRate * (o.frequency.getNextValue).1 :=
          mul_nonneg hb hnext.1
        have hsum : 0 ≤ o.pos + mathTwoPi / o.sampleRate *
            (o.frequency.getNextValue).1 * (len : ℚ) := by
          have : 0 ≤ (len : ℚ) := Nat.cast_nonneg len
          nlinarith
        have hrange := fmod_nonneg_of_nonneg mathTwoPi_pos hsum
        exact ⟨hsr, hrange.1, hrange.2, hnext.2⟩

/-!
## Call sequences

An operation sequence over a prepared, initialised oscillator: frequency
updates and the two processing calls.  A `procBlock` whose contract check
fails leaves the state unchanged (the call is rejected).
-/

inductive OscOp where
  | setFreq (v : ℚ) (force : Bool)
  | procSample
  | procBlock (len : ℕ) (data : List (List ℚ))

/-- One call. -/
def runOp (o : Oscillator) : OscOp → Oscillator
  | .setFreq v force => o.setFrequency v force
  | .procSample => (o.processSample).2
  | .procBlock len data =>
    match o.process len data with
    | .ok (_, o') => o'
    | .error _ => o

/-- A sequence of calls. -/
def runOps (o : Oscillator) : List OscOp → Oscillator
  | [] => o
  | op :: ops => runOps (runOp o op) ops

/-- The frequency values requested along a sequence are all nonnegative. -/
def opFreqNonneg : OscOp → Bool
  | .setFreq v _ => decide (0 ≤ v)
  | _ => true

theorem OscInv_runOp {o : Oscillator} (h : OscInv o) {op : OscOp}
    (hop : opFreqNonneg op = true) : OscInv (runOp o op) := by
  cases op with
  | setFreq v force =>
    have hv : 0 ≤ v := of_decide_eq_true hop
    exact OscInv_setFrequency h hv force
  | procSample => exact OscInv_processSample h
  | procBlock len data =>
    cases hres : o.process len data with
    | error e =>
      simp only [runOp, hres]
      exact h
    | ok r =>
      obtain ⟨out, o'⟩ := r
      simp only [runOp, hres]
      exact OscInv_process h hres

theorem OscInv_runOps {o : Oscillator} (h : OscInv o) :
    ∀ ops : List OscOp, (∀ op ∈ ops, opFreqNonneg op = true) →
      OscInv (runOps o ops) := by
  intro ops
  induction ops generalizing o with
  | nil => intro _; exact h
  | cons op ops ih =>
    intro hops
    exact ih (OscInv_runOp h (hops op (List.mem_cons_self op ops)))
      (fun op' hop' => hops op' (List.mem_cons_of_mem op hop'))

/-!
## The steady phase trajectory and block/sample equivalence
-/

/-- `n` wrapped phase advances by the constant increment `d`. -/
def iterPos (d m : ℚ) : ℕ → ℚ → ℚ
  | 0, p => p
  | n + 1, p => iterPos d m n (fmod (p + d) m)

theorem iterPos_succ_outer (d m : ℚ) :
    ∀ (n : ℕ) (p : ℚ), iterPos d m (n + 1) p = fmod (iterPos d m n p + d) m
  | 0, _ => rfl
  | n + 1, p => iterPos_succ_outer d m n (fmod (p + d) m)

/-- Starting inside `[0, m)`, `n` single-step wrapped advances land exactly
where one advance by `n·d` followed by one wrap does — for every rational
increment `d`, positive or not. -/
theorem iterPos_closed {m : ℚ} (hm : 0 < m) {p : ℚ} (h0 : 0 ≤ p) (h1 : p < m)
    (d : ℚ) : ∀ n : ℕ, iterPos d m n p = fmod (p + d * (n : ℚ)) m := by
  intro n
  induction n with
  | zero =>
    simp only [iterPos, Nat.cast_zero, mul_zero, add_zero]
    exact (fmod_eq_self_of_lt hm h0 h1).symm
  | succ n ih =>
    rw [iterPos_succ_outer, ih]
    have hcast : p + d * ((n + 1 : ℕ) : ℚ) = (p + d * (n : ℚ)) + d := by
      push_cast
      ring
    rw [hcast]
    rcases le_or_lt 0 d with hd | hd
    · have hz0 : 0 ≤ p + d * (n : ℚ) := by
        have : 0 ≤ d * (n : ℚ) := mul_nonneg hd (Nat.cast_nonneg n)
        linarith
      have hS := fmod_nonneg_of_nonneg hm hz0
      apply fmod_add_eq_of_residue_nonneg hm (by linarith [hS.1]) (by linarith)
      obtain ⟨k, hk⟩ := fmod_sub_self_int_mul (p + d * (n : ℚ)) m
      exact ⟨-k, by push_cast; linarith⟩
    · rcases le_or_lt 0 (p + d * (n : ℚ)) with hz0 | hz0
      · have hzm : p + d * (n : ℚ) < m := by
          have : d * (n : ℚ) ≤ 0 :=
            mul_nonpos_of_nonpos_of_nonneg hd.le (Nat.cast_nonneg n)
          linarith
        rw [fmod_eq_self_of_lt hm hz0 hzm]
      · have hS := fmod_nonpos_of_nonpos hm hz0.le
        apply fmod_add_eq_of_residue_nonpos hm (by linarith [hS.2]) (by linarith)
        obtain ⟨k, hk⟩ := fmod_sub_self_int_mul (p + d * (n : ℚ)) m
        exact ⟨-k, by push_cast; linarith⟩

theorem getNextValue_steady {s : LinearSmoothedValue} (h : s.countdown = 0) :
    s.getNextValue = (s.target, { s with steps := s.steps + 1 }) := by
  simp [LinearSmoothedValue.getNextValue, h]

theorem isSmoothing_eq_false_iff (s : LinearSmoothedValue) :
    s.isSmoothing = false ↔ s.countdown = 0 := by
  simp [LinearSmoothedValue.isSmoothing]

/-- With the ramp complete, `processSample` reads and keeps the target
frequency: explicit form of one call. -/
theorem processSample_steady {o : Oscillator} (hcd : o.frequency.countdown = 0) :
    o.processSample =
      (genEval o.generator (o.pos - mathPi),
       { o with frequency := { o.frequency with steps := o.frequency.steps + 1 },
                pos := fmod (o.pos + mathTwoPi * o.frequency.target / o.sampleRate)
                  mathTwoPi }) := by
  unfold Oscillator.processSample
  rw [getNextValue_steady hcd]

/-- With the ramp complete, `n` `processSample` calls produce exactly the
steady per-channel walk of `process`, advance the phase along `iterPos`, and
consume `n` smoothing steps. -/
theorem processSamples_steady :
    ∀ (n : ℕ) (o : Oscillator), o.frequency.countdown = 0 →
      o.processSamples n =
        (steadyVals o.generator o.pos (mathTwoPi * o.frequency.target / o.sampleRate) n,
         { o with pos := iterPos (mathTwoPi * o.frequency.target / o.sampleRate)
                    mathTwoPi n o.pos,
                  frequency := { o.frequency with steps := o.frequency.steps + n } })
  | 0, o, hcd => by
    simp only [Oscillator.processSamples, steadyVals, iterPos, Nat.add_zero]
  | n + 1, o, hcd => by
    unfold Oscillator.processSamples
    rw [processSample_steady hcd]
    dsimp only
    have ih := processSamples_steady n
      { o with frequency := { o.frequency with steps := o.frequency.steps + 1 },
               pos := fmod (o.pos + mathTwoPi * o.frequency.target / o.sampleRate)
                 mathTwoPi }
      hcd
    rw [ih]
    dsimp only
    simp only [steadyVals, iterPos]
    have hsteps : o.frequency.steps + 1 + n = o.frequency.steps + (n + 1) := by omega
    rw [hsteps]

/-!
## Claims
-/

theorem generator_isNone_eq_false {o : Oscillator} (h : o.isInitialised = true) :
    o.generator.isNone = false := by
  unfold Oscillator.isInitialised at h
  cases hg : o.generator
  · rw [hg] at h
    simp at h
  · simp

/-- C9: A default-constructed oscillator, before any `prepare` or
`setFrequency` call, is uninitialised, reports frequency 440, stores sample
rate 48000, and has phase 0. -/
theorem default_oscillator_state :
    Oscillator.default.isInitialised = false ∧
    Oscillator.default.getFrequency = 440 ∧
    Oscillator.default.sampleRate = 48000 ∧
    Oscillator.default.pos = 0 :=
  ⟨rfl, rfl, rfl, rfl⟩

/-- C4: On an initialised oscillator, `processSample` advances the smoothing
primitive by exactly one `getNextValue` step, uses the increment
`2π · currentFrequency / sampleRate`, returns the generator evaluated at the
pre-advance phase minus π, and stores the wrapped advanced phase. -/
theorem processSample_one_step_spec (o : Oscillator) (g : Generator)
    (hg : o.generator = some g) :
    o.processSample =
      (g.eval (o.pos - mathPi),
       { o with frequency := (o.frequency.getNextValue).2,
                pos := fmod (o.pos + mathTwoPi * (o.frequency.getNextValue).1 /
                  o.sampleRate) mathTwoPi }) := by
  unfold Oscillator.processSample
  rw [hg]
  rfl

def w4osc : Oscillator :=
  (Oscillator.default.initialise (fun x => x) 0).prepare ⟨48000, 8, 1⟩

/-- Witness: `processSample_one_step_spec` at a concrete prepared oscillator
with the identity waveform. -/
theorem processSample_one_step_spec_witness :
    w4osc.processSample =
      ((Generator.direct (fun x => x)).eval (w4osc.pos - mathPi),
       { w4osc with frequency := (w4osc.frequency.getNextValue).2,
                    pos := fmod (w4osc.pos + mathTwoPi *
                      (w4osc.frequency.getNextValue).1 / w4osc.sampleRate)
                      mathTwoPi }) :=
  processSample_one_step_spec w4osc (Generator.direct (fun x => x)) rfl

/-- C5 (amended): `initialise` always replaces the generator — with the
Direct variant when `approximationPoints == 0` and with a generator querying
a freshly built cache over `[-π, π]` otherwise; the previously owned cache is
released (replaced) only in the cache-building case, while `initialise` with
`approximationPoints == 0` leaves a previously owned cache in place. -/
theorem initialise_variants (o : Oscillator) (f : ℚ → ℚ) (k : ℕ) :
    (k = 0 → o.initialise f k =
       { o with generator := some (.direct f) }) ∧
    (k ≠ 0 → o.initialise f k =
       { o with lookupTable := some ⟨f, -mathPi, mathPi, k⟩,
                generator := some (.viaTable ⟨f, -mathPi, mathPi, k⟩) }) := by
  constructor
  · intro hk
    subst hk
    simp [Oscillator.initialise]
  · intro hk
    simp [Oscillator.initialise, hk]

def c5osc : Oscillator :=
  (Oscillator.default.initialise (fun x => x) 4).initialise (fun _ => 0) 0

/-- C5 counterexample: after `initialise(f, 4)` followed by
`initialise(g, 0)`, the generator has been replaced but the cache built by
the first call is still owned — the repeated `initialise` did **not** release
the previously owned approximation cache, contradicting the claim. -/
theorem initialise_retains_old_cache :
    c5osc.lookupTable.isSome = true ∧
    c5osc.lookupTable = (Oscillator.default.initialise (fun x => x) 4).lookupTable ∧
    c5osc.generator = some (.direct (fun _ => 0)) :=
  ⟨rfl, rfl, rfl⟩

/-- Witness: `initialise_variants` in the cache-building case at concrete
arguments. -/
theorem initialise_variants_witness :
    Oscillator.default.initialise (fun x => x) 3 =
      { Oscillator.default with
          lookupTable := some ⟨fun x => x, -mathPi, mathPi, 3⟩,
          generator := some (.viaTable ⟨fun x => x, -mathPi, mathPi, 3⟩) } :=
  (initialise_variants Oscillator.default (fun x => x) 3).2 (by decide)

/-- C6: `reset` unconditionally zeroes the phase; it re-arms the smoothing
primitive with the 0.05 s ramp exactly when the stored sample rate is
positive, and leaves the smoothing state untouched otherwise. -/
theorem reset_behaviour (o : Oscillator) :
    (o.reset).pos = 0 ∧
    (0 < o.sampleRate →
      o.reset = { o with pos := 0,
                         frequency := o.frequency.reset o.sampleRate (1/20) }) ∧
    (¬ 0 < o.sampleRate → o.reset = { o with pos := 0 }) := by
  by_cases h : 0 < o.sampleRate
  · have he : o.reset =
        { o with pos := 0, frequency := o.frequency.reset o.sampleRate (1/20) } := by
      unfold Oscillator.reset
      rw [if_pos h]
    exact ⟨by rw [he], fun _ => he, fun hc => absurd h hc⟩
  · have he : o.reset = { o with pos := 0 } := by
      unfold Oscillator.reset
      rw [if_neg h]
    exact ⟨by rw [he], fun hc => absurd hc h, fun _ => he⟩

/-- Witness: `reset_behaviour` on the default oscillator, whose sample rate
48000 is positive. -/
theorem reset_behaviour_witness :
    Oscillator.default.reset =
      { Oscillator.default with
          pos := 0,
          frequency := Oscillator.default.frequency.reset
            Oscillator.default.sampleRate (1/20) } :=
  (reset_behaviour Oscillator.default).2.1 (by decide)

/-- C2: on an initialised oscillator, `process` with a block longer than the
scratch buffer sized by the last `prepare` fails with the contract-violation
error before touching any buffer, and with a fitting block it always
succeeds — in particular no bounds-checked scratch access ever fails. -/
theorem process_blocksize_contract (o : Oscillator) (len : ℕ)
    (data : List (List ℚ)) (hinit : o.isInitialised = true) :
    (o.rampBuffer.length < len →
      o.process len data = .error .assertViolation) ∧
    (len ≤ o.rampBuffer.length → ∃ r, o.process len data = .ok r) := by
  constructor
  · intro hlt
    unfold Oscillator.process
    rw [generator_isNone_eq_false hinit]
    simp only [Bool.false_eq_true, if_false, if_pos hlt]
  · intro hle
    exact process_ok_of_fits hinit hle data

def w2osc : Oscillator :=
  (Oscillator.default.initialise (fun x => x) 0).prepare ⟨48000, 2, 1⟩

/-- Witness: `process_blocksize_contract` at a concrete oscillator prepared
with maximum block size 2: a 3-sample block is rejected, a 2-sample block
succeeds. -/
theorem process_blocksize_contract_witness :
    w2osc.process 3 [[0, 0, 0]] = .error .assertViolation ∧
    ∃ r, w2osc.process 2 [[0, 0]] = .ok r :=
  ⟨(process_blocksize_contract w2osc 3 [[0, 0, 0]] rfl).1 (by decide),
   (process_blocksize_contract w2osc 2 [[0, 0]] rfl).2 (by decide)⟩

/-- A successful `process` call on a fitting block, characterised: one sample
sequence `vals` of length `len` is computed once and written over every
channel, and the final state neither depends on the block's contents nor
touches generator, cache, sample rate or scratch size. -/
theorem process_ok_characterization {o : Oscillator}
    (hg : o.generator.isSome = true) {len : ℕ}
    (hlen : len ≤ o.rampBuffer.length) :
    ∃ (vals : List ℚ) (o' : Oscillator), vals.length = len ∧
      o'.generator = o.generator ∧ o'.lookupTable = o.lookupTable ∧
      o'.sampleRate = o.sampleRate ∧ o'.rampBuffer.length = o.rampBuffer.length ∧
      ∀ data : List (List ℚ),
        o.process len data = .ok (data.map (fun old => writeSamples old vals), o') := by
  have hgn : o.generator.isNone = false := by
    cases h : o.generator
    · rw [h] at hg
      simp at hg
    · simp
  by_cases hsm : o.frequency.isSmoothing
  · obtain ⟨⟨buf, pos', fr'⟩, hr, hrlen⟩ :=
      stageRamp_isSome (mathTwoPi / o.sampleRate) len 0 o.rampBuffer o.pos
        o.frequency (by omega)
    dsimp only at hrlen
    obtain ⟨staged, hread, hslen⟩ := readStaged_isSome buf len 0 (by omega)
    refine ⟨staged.map (genEval o.generator),
      { o with rampBuffer := buf, pos := pos', frequency := fr' },
      by simp [hslen], rfl, rfl, rfl, by simpa using hrlen, ?_⟩
    intro data
    unfold Oscillator.process
    rw [hgn]
    simp only [Bool.false_eq_true, if_false, if_neg (not_lt.mpr hlen), if_pos hsm]
    rw [hr]
    dsimp only
    rw [mapChannels_eq_map _ (fun old => writeSamples old (staged.map (genEval o.generator)))
      data (fun c _ => rampChannel_eq o.generator buf len staged hread c)]
  · have hsm' : o.frequency.isSmoothing = false := by
      simpa using hsm
    refine ⟨steadyVals o.generator o.pos
        (mathTwoPi / o.sampleRate * (o.frequency.getNextValue).1) len,
      { o with frequency := (o.frequency.getNextValue).2,
               pos := fmod (o.pos + mathTwoPi / o.sampleRate *
                 (o.frequency.getNextValue).1 * (len : ℚ)) mathTwoPi },
      steadyVals_length _ _ _ _, rfl, rfl, rfl, rfl, ?_⟩
    intro data
    exact process_steady_eq hg hsm' hlen data

/-- Writing the same full-length sample sequence over every channel of a
well-formed block yields the constant block. -/
theorem map_writeSamples_const (vals : List ℚ) (len : ℕ) (hv : vals.length = len) :
    ∀ l : List (List ℚ), (∀ c ∈ l, c.length = len) →
      l.map (fun old => writeSamples old vals) = List.replicate l.length vals
  | [], _ => rfl
  | c :: cs, h => by
    simp only [List.map_cons, List.length_cons, List.replicate_succ]
    rw [writeSamples_eq_of_length c vals ((h c (List.mem_cons_self c cs)).trans hv.symm),
        map_writeSamples_const vals len hv cs
          (fun c' hc' => h c' (List.mem_cons_of_mem c hc'))]

/-- C7: on a fitting, well-formed block with more than one channel, `process`
succeeds and every pair of output channels carries the identical sample
sequence. -/
theorem process_multichannel_identical {o : Oscillator} (g : Generator)
    (hg : o.generator = some g) {len : ℕ} (hlen : len ≤ o.rampBuffer.length)
    {data : List (List ℚ)} (_hch : 1 < data.length)
    (hwf : ∀ c ∈ data, c.length = len) :
    ∃ out o', o.process len data = .ok (out, o') ∧
      ∀ c₁ ∈ out, ∀ c₂ ∈ out, c₁ = c₂ := by
  have hgs : o.generator.isSome = true := by
    rw [hg]
    rfl
  obtain ⟨vals, o', hvlen, _, _, _, _, hall⟩ := process_ok_characterization hgs hlen
  refine ⟨data.map (fun old => writeSamples old vals), o', hall data, ?_⟩
  intro c₁ hc₁ c₂ hc₂
  obtain ⟨old₁, hold₁, rfl⟩ := List.mem_map.mp hc₁
  obtain ⟨old₂, hold₂, rfl⟩ := List.mem_map.mp hc₂
  rw [writeSamples_eq_of_length old₁ vals ((hwf old₁ hold₁).trans hvlen.symm),
      writeSamples_eq_of_length old₂ vals ((hwf old₂ hold₂).trans hvlen.symm)]

def w7osc : Oscillator :=
  (Oscillator.default.initialise (fun x => x) 0).prepare ⟨48000, 4, 2⟩

/-- Witness: `process_multichannel_identical` on a concrete two-channel,
two-sample block. -/
theorem process_multichannel_identical_witness :
    ∃ out o', w7osc.process 2 [[1, 2], [3, 4]] = .ok (out, o') ∧
      ∀ c₁ ∈ out, ∀ c₂ ∈ out, c₁ = c₂ :=
  @process_multichannel_identical w7osc (Generator.direct (fun x => x)) rfl 2
    (by decide) [[1, 2], [3, 4]] (by decide) (by decide)

/-- C8: a fitting, well-formed `process` call succeeds, writes every position
of every channel with values independent of the block's previous contents,
and of the oscillator's state mutates only the phase, the smoothing state and
the (externally invisible) scratch contents — generator, lookup table, sample
rate and scratch-buffer size are unchanged. -/
theorem process_frame_effects {o : Oscillator} (g : Generator)
    (hg : o.generator = some g) {len : ℕ} (hlen : len ≤ o.rampBuffer.length)
    {data : List (List ℚ)} (hwf : ∀ c ∈ data, c.length = len) :
    ∃ out o', o.process len data = .ok (out, o') ∧
      out.length = data.length ∧
      (∀ c ∈ out, c.length = len) ∧
      o'.generator = o.generator ∧
      o'.lookupTable = o.lookupTable ∧
      o'.sampleRate = o.sampleRate ∧
      o'.rampBuffer.length = o.rampBuffer.length ∧
      (∀ data₂, (∀ c ∈ data₂, c.length = len) → data₂.length = data.length →
        o.process len data₂ = .ok (out, o')) := by
  have hgs : o.generator.isSome = true := by
    rw [hg]
    rfl
  obtain ⟨vals, o', hvlen, hgen, hlut, hsr, hrb, hall⟩ :=
    process_ok_characterization hgs hlen
  refine ⟨data.map (fun old => writeSamples old vals), o', hall data,
    by simp, ?_, hgen, hlut, hsr, hrb, ?_⟩
  · intro c hc
    obtain ⟨old, holdm, rfl⟩ := List.mem_map.mp hc
    rw [writeSamples_length]
    exact hwf old holdm
  · intro data₂ hwf₂ hlen₂
    rw [hall data₂, map_writeSamples_const vals len hvlen data₂ hwf₂,
        map_writeSamples_const vals len hvlen data hwf, hlen₂]

def w8osc : Oscillator :=
  (Oscillator.default.initialise (fun x => x) 0).prepare ⟨48000, 4, 1⟩

/-- Witness: `process_frame_effects` on a concrete one-channel, two-sample
block. -/
theorem process_frame_effects_witness :
    ∃ out o', w8osc.process 2 [[9, 9]] = .ok (out, o') ∧
      out.length = [[(9 : ℚ), 9]].length ∧
      (∀ c ∈ out, c.length = 2) ∧
      o'.generator = w8osc.generator ∧
      o'.lookupTable = w8osc.lookupTable ∧
      o'.sampleRate = w8osc.sampleRate ∧
      o'.rampBuffer.length = w8osc.rampBuffer.length ∧
      (∀ data₂, (∀ c ∈ data₂, c.length = 2) → data₂.length = [[(9 : ℚ), 9]].length →
        w8osc.process 2 data₂ = .ok (out, o')) :=
  @process_frame_effects w8osc (Generator.direct (fun x => x)) rfl 2
    (by decide) [[9, 9]] (by decide)

/-- C3: with the smoothing ramp complete (fixed frequency), one `process`
call over one channel of `N` samples yields exactly the `N` values of `N`
consecutive `processSample` calls from the same state and leaves the same
phase (exact equality in the rational model). -/
theorem process_block_eq_sample_iteration {o : Oscillator} (g : Generator)
    (hg : o.generator = some g) (hsm : o.frequency.isSmoothing = false)
    (hp0 : 0 ≤ o.pos) (hp1 : o.pos < mathTwoPi)
    (n : ℕ) (hn : n ≤ o.rampBuffer.length)
    (old : List ℚ) (hold : old.length = n) :
    ∃ o' : Oscillator,
      o.process n [old] = .ok ([(o.processSamples n).1], o') ∧
      o'.pos = (o.processSamples n).2.pos := by
  have hcd : o.frequency.countdown = 0 := (isSmoothing_eq_false_iff _).mp hsm
  have hgs : o.generator.isSome = true := by
    rw [hg]
    rfl
  have hstep := process_steady_eq hgs hsm hn [old]
  rw [getNextValue_steady hcd] at hstep
  dsimp only at hstep
  simp only [div_mul_eq_mul_div] at hstep
  have hps := processSamples_steady n o hcd
  have hvals : (o.processSamples n).1 =
      steadyVals o.generator o.pos (mathTwoPi * o.frequency.target / o.sampleRate) n := by
    rw [hps]
  have hpos : (o.processSamples n).2.pos =
      iterPos (mathTwoPi * o.frequency.target / o.sampleRate) mathTwoPi n o.pos := by
    rw [hps]
  refine ⟨{ o with
      frequency := { o.frequency with steps := o.frequency.steps + 1 },
      pos := fmod (o.pos + mathTwoPi * o.frequency.target * (n : ℚ) / o.sampleRate)
        mathTwoPi }, ?_, ?_⟩
  · rw [hstep, hvals]
    simp only [List.map_cons, List.map_nil]
    rw [writeSamples_eq_of_length old _ (hold.trans (steadyVals_length _ _ _ _).symm)]
  · dsimp only
    rw [hpos, iterPos_closed mathTwoPi_pos hp0 hp1
      (mathTwoPi * o.frequency.target / o.sampleRate) n]
    congr 1
    ring

def w3osc : Oscillator :=
  (Oscillator.default.initialise (fun x => x) 0).prepare ⟨48000, 4, 1⟩

/-- Witness: `process_block_eq_sample_iteration` for a concrete two-sample,
one-channel block. -/
theorem process_block_eq_sample_iteration_witness :
    ∃ o' : Oscillator,
      w3osc.process 2 [[5, 7]] = .ok ([(w3osc.processSamples 2).1], o') ∧
      o'.pos = (w3osc.processSamples 2).2.pos :=
  @process_block_eq_sample_iteration w3osc (Generator.direct (fun x => x)) rfl rfl
    (le_refl 0) mathTwoPi_pos 2 (by decide) [5, 7] rfl

theorem getNextValue_steps (s : LinearSmoothedValue) :
    ((s.getNextValue).2).steps = s.steps + 1 := by
  unfold LinearSmoothedValue.getNextValue
  split <;> rfl

/-- C10: with no ramp in progress, every `process` call consumes exactly one
smoothing step regardless of the block length — for `len = 0` that step is
still consumed while the phase and all output channels are left unchanged —
whereas `processSample` consumes exactly one step per produced sample. -/
theorem process_single_smoothing_step {o : Oscillator} (g : Generator)
    (hg : o.generator = some g) (hsm : o.frequency.isSmoothing = false)
    (hp0 : 0 ≤ o.pos) (hp1 : o.pos < mathTwoPi)
    (len : ℕ) (hlen : len ≤ o.rampBuffer.length) (data : List (List ℚ)) :
    (∃ out o', o.process len data = .ok (out, o') ∧
       o'.frequency.steps = o.frequency.steps + 1) ∧
    (len = 0 → o.process len data =
       .ok (data, { o with frequency := { o.frequency with
         steps := o.frequency.steps + 1 } })) ∧
    (∀ o₂ : Oscillator,
       ((o₂.processSample).2).frequency.steps = o₂.frequency.steps + 1) := by
  have hcd : o.frequency.countdown = 0 := (isSmoothing_eq_false_iff _).mp hsm
  have hgs : o.generator.isSome = true := by
    rw [hg]
    rfl
  have hstep := process_steady_eq hgs hsm hlen data
  rw [getNextValue_steady hcd] at hstep
  dsimp only at hstep
  refine ⟨⟨_, _, hstep, rfl⟩, ?_, ?_⟩
  · intro h0
    subst h0
    rw [hstep]
    simp only [steadyVals, writeSamples_nil, Nat.cast_zero, mul_zero, add_zero]
    rw [fmod_eq_self_of_lt mathTwoPi_pos hp0 hp1]
    simp only [List.map_id']
  · intro o₂
    exact getNextValue_steps o₂.frequency

def w10osc : Oscillator :=
  (Oscillator.default.initialise (fun x => x) 0).prepare ⟨48000, 4, 1⟩

/-- Witness: `process_single_smoothing_step` for a concrete empty block. -/
theorem process_single_smoothing_step_witness :
    (∃ out o', w10osc.process 0 [[], []] = .ok (out, o') ∧
       o'.frequency.steps = w10osc.frequency.steps + 1) ∧
    ((0 : ℕ) = 0 → w10osc.process 0 [[], []] =
       .ok ([[], []], { w10osc with frequency := { w10osc.frequency with
         steps := w10osc.frequency.steps + 1 } })) ∧
    (∀ o₂ : Oscillator,
       ((o₂.processSample).2).frequency.steps = o₂.frequency.steps + 1) :=
  @process_single_smoothing_step w10osc (Generator.direct (fun x => x)) rfl rfl
    (le_refl 0) mathTwoPi_pos 0 (by decide) [[], []]

/-- C1 (amended): on an oscillator satisfying the preparation invariant
(positive sample rate, phase in range, nonnegative smoothing state), every
sequence of `setFrequency`/`processSample`/`process` calls whose requested
frequencies are all nonnegative keeps the phase in `[0, 2π)` at the start
and at the end of every call. -/
theorem oscillator_phase_range (o : Oscillator) (h : OscInv o)
    (ops : List OscOp) (hops : ∀ op ∈ ops, opFreqNonneg op = true) :
    ∀ n : ℕ, 0 ≤ (runOps o (ops.take n)).pos ∧
      (runOps o (ops.take n)).pos < mathTwoPi := by
  intro n
  have hsub : ∀ op ∈ ops.take n, opFreqNonneg op = true :=
    fun op hop => hops op (List.take_subset n ops hop)
  have hinv := OscInv_runOps h (ops.take n) hsub
  exact ⟨hinv.2.1, hinv.2.2.1⟩

def c1osc : Oscillator :=
  ((Oscillator.default.initialise (fun x => x) 0).prepare
    ⟨48000, 8, 1⟩).setFrequency (-440) true

/-- C1 counterexample: on a prepared, initialised oscillator, the frequency
value -440 — reachable through `setFrequency` — drives the phase strictly
negative after a single `processSample` call, so the phase does **not** stay
in `[0, 2π)` for every reachable frequency value. -/
theorem oscillator_phase_range_cex : ((c1osc.processSample).2).pos < 0 := by
  have hx0 : mathTwoPi * (-440) / 48000 ≤ 0 := by
    rw [mathTwoPi_eq]
    norm_num
  have hx1 : -mathTwoPi < mathTwoPi * (-440) / 48000 := by
    rw [mathTwoPi_eq]
    norm_num
  have hx2 : mathTwoPi * (-440) / 48000 < 0 := by
    rw [mathTwoPi_eq]
    norm_num
  have h1 : ((c1osc.processSample).2).pos =
      fmod (mathTwoPi * (-440) / 48000) mathTwoPi := by
    simp [c1osc, Oscillator.processSample, Oscillator.setFrequency,
      Oscillator.prepare, Oscillator.reset, Oscillator.initialise,
      Oscillator.default, LinearSmoothedValue.init, LinearSmoothedValue.reset,
      LinearSmoothedValue.setValue, LinearSmoothedValue.getNextValue]
  rw [h1, fmod_eq_self_of_nonpos mathTwoPi_pos hx1 hx0]
  exact hx2

def w1osc : Oscillator :=
  (Oscillator.default.initialise (fun x => x) 0).prepare ⟨48000, 4, 1⟩

def w1ops : List OscOp :=
  [.setFreq 880 false, .procSample, .procBlock 2 [[0, 0]], .procSample]

/-- Witness: `oscillator_phase_range` after the first three calls of a
concrete nonnegative-frequency call sequence. -/
theorem oscillator_phase_range_witness :
    0 ≤ (runOps w1osc (w1ops.take 3)).pos ∧
      (runOps w1osc (w1ops.take 3)).pos < mathTwoPi :=
  oscillator_phase_range w1osc (by decide) w1ops (by decide) 3
